import Mathlib

/-!
# Verification of the Favorites / Expanded-Folders settings store

Shallow embedding of the `Settings` class of `dfreds-convenient-effects`
(`src/ts/settings.js`-style file, here `src/unnamed/part_000`).

The store persists two collections (favorite effect names, expanded folder
names) as semicolon-joined strings in a key-value backend
(`game.settings.get` / `game.settings.set`).  Every operation is a pure
read-modify-write of the raw string for one key, so each operation is
embedded as a pure function from the raw persisted string to the new raw
persisted string.  Strings are modelled as `List Char` (the character
sequence of a JavaScript string); concrete inputs are written as
`"...".data`.

JavaScript primitives embedded:
* `raw.split(';')`           → `splitSemi`
* `arr.join(';')`            → `joinSemi`
* `[...new Set(arr)]`        → `dedupFirst` (keep first occurrence, in order)
* `.filter((n) => n.trim())` → `List.filter trimTruthy`, where `trimTruthy s`
  is the truthiness of `s.trim()`: `s` contains a non-whitespace character
  (whitespace per the ECMAScript `trim` character class).
-/

/-- A JavaScript string, as its sequence of characters. -/
abbrev Str := List Char

/-- Code points treated as whitespace by ECMAScript `String.prototype.trim`
(WhiteSpace ∪ LineTerminator). -/
def jsWhitespaceCodes : List Nat :=
  [0x9, 0xa, 0xb, 0xc, 0xd, 0x20, 0xa0, 0x1680,
   0x2000, 0x2001, 0x2002, 0x2003, 0x2004, 0x2005, 0x2006, 0x2007,
   0x2008, 0x2009, 0x200a, 0x2028, 0x2029, 0x202f, 0x205f, 0x3000, 0xfeff]

/-- Whether a character is ECMAScript trim-whitespace. -/
def isJsWhitespace (c : Char) : Bool :=
  jsWhitespaceCodes.contains c.toNat

/-- Truthiness of `s.trim()` in JavaScript: the trimmed string is non-empty
iff `s` contains some non-whitespace character. -/
def trimTruthy (s : Str) : Bool :=
  s.any fun c => !(isJsWhitespace c)

/-- `raw.split(';')`: split on every semicolon, keeping empty pieces; the
empty string splits to `[""]`. -/
def splitSemi : Str → List Str
  | [] => [[]]
  | c :: cs =>
    if c = ';' then [] :: splitSemi cs
    else
      match splitSemi cs with
      | [] => [[c]]
      | p :: ps => (c :: p) :: ps

/-- `arr.join(';')`: interpose a semicolon between consecutive elements. -/
def joinSemi : List Str → Str
  | [] => []
  | [x] => x
  | x :: y :: ys => x ++ ';' :: joinSemi (y :: ys)

/-- `[...new Set(arr)]`: remove duplicates, keeping the first occurrence of
each value in order of first appearance (a later duplicate is dropped, so it
never moves an element). -/
def dedupFirst : List Str → List Str
  | [] => []
  | x :: xs => x :: (dedupFirst xs).filter fun y => y ≠ x

/-- `get favoriteEffectNames` getter: fetch the raw persisted string, split
on `;`, and drop entries whose `trim()` is falsy. -/
def favoriteEffectNames (raw : Str) : List Str :=
  (splitSemi raw).filter trimTruthy

/-- `addFavoriteEffect(name)`: read the members, push `name`, dedupe via
`new Set`, join with `;` and write back. Returns the new raw value. -/
def addFavoriteEffect (raw : Str) (name : Str) : Str :=
  joinSemi (dedupFirst (favoriteEffectNames raw ++ [name]))

/-- `removeFavoriteEffect(name)`: read the members, keep those `!== name`,
join with `;` and write back. Returns the new raw value. -/
def removeFavoriteEffect (raw : Str) (name : Str) : Str :=
  joinSemi ((favoriteEffectNames raw).filter fun favoriteEffect => favoriteEffect ≠ name)

/-- `isFavoritedEffect(name)`: `this.favoriteEffectNames.includes(name)`. -/
def isFavoritedEffect (raw : Str) (name : Str) : Bool :=
  (favoriteEffectNames raw).contains name

/-- `get expandedFolders` getter: fetch the raw persisted string, split on
`;`, and drop entries whose `trim()` is falsy. -/
def expandedFolders (raw : Str) : List Str :=
  (splitSemi raw).filter trimTruthy

/-- `addExpandedFolder(name)`: read, push, dedupe, join, write back. -/
def addExpandedFolder (raw : Str) (name : Str) : Str :=
  joinSemi (dedupFirst (expandedFolders raw ++ [name]))

/-- `removeExpandedFolder(name)`: read, keep entries `!== name`, join, write
back. -/
def removeExpandedFolder (raw : Str) (name : Str) : Str :=
  joinSemi ((expandedFolders raw).filter fun expandedFolder => expandedFolder ≠ name)

/-- `clearExpandedFolders()`: overwrite the persisted value with `''`. -/
def clearExpandedFolders (_raw : Str) : Str :=
  []

/-- `isFolderExpanded(name)`: `this.expandedFolders.includes(name)`. -/
def isFolderExpanded (raw : Str) (name : Str) : Bool :=
  (expandedFolders raw).contains name

/-- The persisted state: one raw string per registered settings key. -/
structure SettingsState where
  favoriteEffectNamesRaw : Str
  expandedFoldersRaw : Str
deriving DecidableEq

/-- `registerSettings()` declares default `''` for `FAVORITE_EFFECT_NAMES`
and default `'Favorites'` for `EXPANDED_FOLDERS`: the state a fresh client
reads before any write. -/
def registerSettings : SettingsState :=
  { favoriteEffectNamesRaw := "".data
    expandedFoldersRaw := "Favorites".data }

/-! ## Algebra of `splitSemi`, `joinSemi` and `dedupFirst` -/

theorem splitSemi_ne_nil (s : Str) : splitSemi s ≠ [] := by
  induction s with
  | nil => simp [splitSemi]
  | cons c cs ih =>
    by_cases hc : c = ';'
    · simp [splitSemi, hc]
    · rcases hr : splitSemi cs with _ | ⟨p, ps⟩
      · exact absurd hr ih
      · simp [splitSemi, hc, hr]

theorem splitSemi_semi (cs : Str) : splitSemi (';' :: cs) = [] :: splitSemi cs := by
  simp [splitSemi]

theorem splitSemi_cons_of_ne {c : Char} (hc : c ≠ ';') (cs : Str) {p : Str}
    {ps : List Str} (h : splitSemi cs = p :: ps) :
    splitSemi (c :: cs) = (c :: p) :: ps := by
  simp [splitSemi, hc, h]

/-- No piece produced by `splitSemi` contains the delimiter. -/
theorem not_semi_mem_of_mem_splitSemi :
    ∀ (s : Str), ∀ x ∈ splitSemi s, ';' ∉ x := by
  intro s
  induction s with
  | nil =>
    intro x hx
    have hx2 : x = ([] : Str) := by simpa [splitSemi] using hx
    simp [hx2]
  | cons c cs ih =>
    intro x hx
    by_cases hc : c = ';'
    · subst hc
      rw [splitSemi_semi] at hx
      rcases List.mem_cons.mp hx with rfl | hx
      · simp
      · exact ih x hx
    · rcases hr : splitSemi cs with _ | ⟨p, ps⟩
      · exact absurd hr (splitSemi_ne_nil cs)
      · rw [splitSemi_cons_of_ne hc cs hr] at hx
        rcases List.mem_cons.mp hx with rfl | hx
        · intro hmem
          rcases List.mem_cons.mp hmem with h1 | h1
          · exact hc h1.symm
          · exact ih p (by rw [hr]; exact List.mem_cons_self _ _) h1
        · exact ih x (by rw [hr]; exact List.mem_cons_of_mem _ hx)

/-- Splitting distributes over a delimiter occurrence. -/
theorem splitSemi_append_semi (s t : Str) :
    splitSemi (s ++ ';' :: t) = splitSemi s ++ splitSemi t := by
  induction s with
  | nil => simp [splitSemi]
  | cons c cs ih =>
    by_cases hc : c = ';'
    · subst hc
      simp only [List.cons_append, splitSemi_semi, ih]
    · rcases hr : splitSemi cs with _ | ⟨p, ps⟩
      · exact absurd hr (splitSemi_ne_nil cs)
      · have h2 : splitSemi (cs ++ ';' :: t) = p :: (ps ++ splitSemi t) := by
          rw [ih, hr]; simp
        rw [List.cons_append, splitSemi_cons_of_ne hc _ h2,
          splitSemi_cons_of_ne hc cs hr]
        simp

/-- A delimiter-free string splits to the singleton list of itself. -/
theorem splitSemi_eq_singleton {s : Str} (h : ';' ∉ s) : splitSemi s = [s] := by
  induction s with
  | nil => simp [splitSemi]
  | cons c cs ih =>
    have hc : c ≠ ';' := fun hcc => h (by simp [hcc])
    have hcs : ';' ∉ cs := fun hm => h (List.mem_cons_of_mem _ hm)
    rw [splitSemi_cons_of_ne hc cs (ih hcs)]

theorem joinSemi_cons_cons (x y : Str) (ys : List Str) :
    joinSemi (x :: y :: ys) = x ++ ';' :: joinSemi (y :: ys) := by
  simp [joinSemi]

/-- Splitting a join of delimiter-free pieces recovers the pieces. -/
theorem splitSemi_joinSemi {l : List Str} (hl : ∀ x ∈ l, ';' ∉ x)
    (hne : l ≠ []) : splitSemi (joinSemi l) = l := by
  induction l with
  | nil => exact absurd rfl hne
  | cons x xs ih =>
    rcases xs with _ | ⟨y, ys⟩
    · exact splitSemi_eq_singleton (hl x (by simp))
    · rw [joinSemi_cons_cons, splitSemi_append_semi,
        splitSemi_eq_singleton (hl x (by simp)),
        ih (fun z hz => hl z (List.mem_cons_of_mem _ hz)) (by simp)]
      simp

/-- The read path applied to a write of delimiter-free pieces keeps exactly
the trim-truthy pieces. -/
theorem filter_splitSemi_joinSemi {l : List Str} (hl : ∀ x ∈ l, ';' ∉ x) :
    (splitSemi (joinSemi l)).filter trimTruthy = l.filter trimTruthy := by
  rcases l with _ | ⟨x, xs⟩
  · rfl
  · rw [splitSemi_joinSemi hl (by simp)]

theorem joinSemi_append_singleton {l : List Str} (h : l ≠ []) (a : Str) :
    joinSemi (l ++ [a]) = joinSemi l ++ ';' :: a := by
  induction l with
  | nil => exact absurd rfl h
  | cons x xs ih =>
    rcases xs with _ | ⟨y, ys⟩
    · simp [joinSemi]
    · have ih2 := ih (by simp)
      simp only [List.cons_append] at ih2 ⊢
      rw [joinSemi_cons_cons, joinSemi_cons_cons, ih2]
      simp

theorem dedupFirst_cons (x : Str) (xs : List Str) :
    dedupFirst (x :: xs) = x :: (dedupFirst xs).filter fun y => y ≠ x := rfl

theorem mem_dedupFirst {a : Str} : ∀ {l : List Str}, a ∈ dedupFirst l ↔ a ∈ l := by
  intro l
  induction l with
  | nil => simp [dedupFirst]
  | cons x xs ih =>
    simp only [dedupFirst, List.mem_cons, List.mem_filter, ih, decide_eq_true_eq]
    constructor
    · rintro (rfl | ⟨hmem, _⟩)
      · exact Or.inl rfl
      · exact Or.inr hmem
    · rintro (rfl | hmem)
      · exact Or.inl rfl
      · by_cases hax : a = x
        · exact Or.inl hax
        · exact Or.inr ⟨hmem, hax⟩

/-- Appending one element before dedup: dropped if already present, kept at
the end otherwise. -/
theorem dedupFirst_append_singleton (l : List Str) (a : Str) :
    dedupFirst (l ++ [a])
      = if a ∈ l then dedupFirst l else dedupFirst l ++ [a] := by
  induction l with
  | nil => simp [dedupFirst]
  | cons x xs ih =>
    rw [List.cons_append, dedupFirst_cons, ih, dedupFirst_cons]
    by_cases hmem : a ∈ xs
    · rw [if_pos hmem, if_pos (List.mem_cons_of_mem x hmem)]
    · rw [if_neg hmem]
      by_cases hax : a = x
      · subst hax
        rw [if_pos (List.mem_cons_self a xs), List.filter_append]
        simp
      · rw [if_neg (by simp [hax, hmem]), List.filter_append]
        simp [hax]

theorem dedupFirst_filter (p : Str → Bool) :
    ∀ (l : List Str), dedupFirst (l.filter p) = (dedupFirst l).filter p := by
  intro l
  induction l with
  | nil => simp [dedupFirst]
  | cons x xs ih =>
    by_cases hp : p x
    · rw [List.filter_cons_of_pos hp, dedupFirst_cons, dedupFirst_cons, ih,
        List.filter_cons_of_pos hp, List.filter_filter, List.filter_filter]
      refine congrArg (x :: ·) (List.filter_congr fun a _ => ?_)
      exact Bool.and_comm _ _
    · rw [List.filter_cons_of_neg hp, ih, dedupFirst_cons,
        List.filter_cons_of_neg hp, List.filter_filter]
      refine List.filter_congr fun a _ => ?_
      by_cases hax : a = x
      · subst hax
        have hp2 : p a = false := Bool.eq_false_iff.mpr hp
        simp [hp2]
      · simp [hax]

theorem dedupFirst_idem (l : List Str) : dedupFirst (dedupFirst l) = dedupFirst l := by
  induction l with
  | nil => rfl
  | cons x xs ih =>
    rw [dedupFirst_cons, dedupFirst_cons, dedupFirst_filter, ih,
      List.filter_filter]
    refine congrArg (x :: ·) (List.filter_congr fun a _ => ?_)
    by_cases hax : a = x <;> simp [hax]

theorem dedupFirst_eq_self_of_nodup : ∀ {l : List Str}, l.Nodup → dedupFirst l = l := by
  intro l
  induction l with
  | nil => intro _; rfl
  | cons x xs ih =>
    intro h
    rcases List.nodup_cons.mp h with ⟨hx, hxs⟩
    simp only [dedupFirst, ih hxs]
    refine congrArg (x :: ·) (List.filter_eq_self.mpr fun a ha => ?_)
    simp only [decide_eq_true_eq]
    exact fun hax => hx (hax ▸ ha)

/-! ## Facts about the members the read path returns -/

/-- Every member the read path returns is trim-truthy. -/
theorem trimTruthy_of_mem_favoriteEffectNames {raw x : Str}
    (hx : x ∈ favoriteEffectNames raw) : trimTruthy x = true :=
  List.of_mem_filter hx

/-- Every member the read path returns is delimiter-free. -/
theorem not_semi_of_mem_favoriteEffectNames {raw x : Str}
    (hx : x ∈ favoriteEffectNames raw) : ';' ∉ x :=
  not_semi_mem_of_mem_splitSemi raw x (List.mem_of_mem_filter hx)

/-- Reading back a write of delimiter-free pieces keeps exactly the
trim-truthy pieces. -/
theorem favoriteEffectNames_joinSemi {l : List Str} (hl : ∀ x ∈ l, ';' ∉ x) :
    favoriteEffectNames (joinSemi l) = l.filter trimTruthy :=
  filter_splitSemi_joinSemi hl

/-- Re-filtering the members of any raw value changes nothing. -/
theorem filter_trimTruthy_favoriteEffectNames (raw : Str) :
    (favoriteEffectNames raw).filter trimTruthy = favoriteEffectNames raw :=
  List.filter_eq_self.mpr fun _ hx => trimTruthy_of_mem_favoriteEffectNames hx

/-- What the read path returns after `removeFavoriteEffect`: exactly the
previous members not equal to the removed name. -/
theorem favoriteEffectNames_removeFavoriteEffect (raw name : Str) :
    favoriteEffectNames (removeFavoriteEffect raw name)
      = (favoriteEffectNames raw).filter fun s => s ≠ name := by
  have hsub : ∀ x ∈ (favoriteEffectNames raw).filter (fun s => s ≠ name), ';' ∉ x :=
    fun x hx => not_semi_of_mem_favoriteEffectNames (List.mem_of_mem_filter hx)
  have hdef : removeFavoriteEffect raw name
      = joinSemi ((favoriteEffectNames raw).filter fun s => s ≠ name) := rfl
  rw [hdef, favoriteEffectNames_joinSemi hsub]
  exact List.filter_eq_self.mpr fun x hx =>
    trimTruthy_of_mem_favoriteEffectNames (List.mem_of_mem_filter hx)

/-- What the read path returns after `addFavoriteEffect`: the deduplicated
previous members with the new name appended, all re-filtered by the read
path, provided the new name is delimiter-free. -/
theorem favoriteEffectNames_addFavoriteEffect {name : Str} (raw : Str)
    (h : ';' ∉ name) :
    favoriteEffectNames (addFavoriteEffect raw name)
      = (dedupFirst (favoriteEffectNames raw ++ [name])).filter trimTruthy := by
  have hdef : addFavoriteEffect raw name
      = joinSemi (dedupFirst (favoriteEffectNames raw ++ [name])) := rfl
  rw [hdef]
  refine favoriteEffectNames_joinSemi fun x hx => ?_
  rcases List.mem_append.mp (mem_dedupFirst.mp hx) with hx | hx
  · exact not_semi_of_mem_favoriteEffectNames hx
  · rw [List.mem_singleton.mp hx]; exact h

/-! ## Claims -/

/-- C1: starting from the empty persisted raw value, adding "Blinded", then
"Prone", then "Blinded" again leaves the persisted raw value "Blinded;Prone",
and reading back returns exactly ["Blinded", "Prone"] in first-insertion
order. -/
theorem c1_favorites_scenario :
    addFavoriteEffect
        (addFavoriteEffect (addFavoriteEffect "".data "Blinded".data) "Prone".data)
        "Blinded".data
      = "Blinded;Prone".data ∧
    favoriteEffectNames
        (addFavoriteEffect
          (addFavoriteEffect (addFavoriteEffect "".data "Blinded".data) "Prone".data)
          "Blinded".data)
      = ["Blinded".data, "Prone".data] := by
  constructor <;> decide

/-- C3: removal keeps exactly the members not strictly equal to the given
name (for every prior raw value), and for every prior raw value and name,
adding the name and then removing it makes `isFavoritedEffect` false. -/
theorem c3_remove_then_not_favorited (raw name : Str) :
    favoriteEffectNames (removeFavoriteEffect raw name)
        = (favoriteEffectNames raw).filter (fun favoriteEffect => favoriteEffect ≠ name) ∧
    isFavoritedEffect (removeFavoriteEffect (addFavoriteEffect raw name) name) name
        = false := by
  refine ⟨favoriteEffectNames_removeFavoriteEffect raw name, ?_⟩
  have hmem : name ∉ favoriteEffectNames
      (removeFavoriteEffect (addFavoriteEffect raw name) name) := by
    rw [favoriteEffectNames_removeFavoriteEffect]
    intro hmem
    have := List.of_mem_filter hmem
    simp at this
  simpa [isFavoritedEffect] using hmem

/-- C4 counterexample: with persisted raw value "a;" and absent name "b",
`removeFavoriteEffect` rewrites the raw value to "a", so the persisted raw
value does not stay equal to its prior value. -/
theorem c4_remove_absent_counterexample :
    "b".data ∉ favoriteEffectNames "a;".data ∧
    removeFavoriteEffect "a;".data "b".data ≠ "a;".data := by
  constructor <;> decide

/-- C4 (amended): for every prior raw value and absent name, removal leaves
the member sequence unchanged and writes back the `;`-join of the prior
members — which equals the prior raw value exactly when that raw value is
already in joined canonical form — and on the empty collection it leaves the
collection empty. -/
theorem c4_remove_absent_noop (raw name : Str)
    (h : name ∉ favoriteEffectNames raw) :
    favoriteEffectNames (removeFavoriteEffect raw name) = favoriteEffectNames raw ∧
    removeFavoriteEffect raw name = joinSemi (favoriteEffectNames raw) ∧
    (raw = joinSemi (favoriteEffectNames raw) → removeFavoriteEffect raw name = raw) ∧
    removeFavoriteEffect "".data name = "".data := by
  have hfilter : (favoriteEffectNames raw).filter (fun s => s ≠ name)
      = favoriteEffectNames raw := by
    refine List.filter_eq_self.mpr fun x hx => ?_
    simp only [decide_eq_true_eq]
    exact fun hxn => h (hxn ▸ hx)
  have hraw : removeFavoriteEffect raw name = joinSemi (favoriteEffectNames raw) := by
    have hdef : removeFavoriteEffect raw name
        = joinSemi ((favoriteEffectNames raw).filter fun s => s ≠ name) := rfl
    rw [hdef, hfilter]
  refine ⟨?_, hraw, fun hcanon => by rw [hraw, ← hcanon], ?_⟩
  · rw [favoriteEffectNames_removeFavoriteEffect, hfilter]
  · have h0 : favoriteEffectNames "".data = [] := by decide
    have hdef : removeFavoriteEffect "".data name
        = joinSemi ((favoriteEffectNames "".data).filter fun s => s ≠ name) := rfl
    rw [hdef, h0]
    rfl

/-- C4 witness: instantiating the no-op removal at raw value "a" and absent
name "b". -/
theorem c4_remove_absent_noop_witness :
    "b".data ∉ favoriteEffectNames "a".data ∧
    (favoriteEffectNames (removeFavoriteEffect "a".data "b".data)
        = favoriteEffectNames "a".data ∧
      removeFavoriteEffect "a".data "b".data = joinSemi (favoriteEffectNames "a".data) ∧
      ("a".data = joinSemi (favoriteEffectNames "a".data) →
        removeFavoriteEffect "a".data "b".data = "a".data) ∧
      removeFavoriteEffect "".data "b".data = "".data) :=
  ⟨by decide, c4_remove_absent_noop "a".data "b".data (by decide)⟩

/-- C5: the raw persisted value "a;;  ;b" reads back as exactly the members
"a" and "b", for both collections: the read path splits on the delimiter and
drops empty and whitespace-only entries. -/
theorem c5_whitespace_filtering :
    favoriteEffectNames "a;;  ;b".data = ["a".data, "b".data] ∧
    expandedFolders "a;;  ;b".data = ["a".data, "b".data] := by
  constructor <;> decide

/-- C6: for every prior raw value, `clearExpandedFolders` persists the empty
string, and reading the expanded folders afterwards returns the empty
sequence. -/
theorem c6_clear_expanded_folders (raw : Str) :
    clearExpandedFolders raw = "".data ∧
    expandedFolders (clearExpandedFolders raw) = [] := by
  constructor <;> rfl

/-- C7: a freshly registered client reads the declared defaults: the
favorites default `''` parses to no members, and the expanded-folders
default `'Favorites'` parses to exactly the member "Favorites". -/
theorem c7_registered_defaults :
    favoriteEffectNames registerSettings.favoriteEffectNamesRaw = [] ∧
    expandedFolders registerSettings.expandedFoldersRaw = ["Favorites".data] := by
  constructor <;> decide

/-- C2 counterexample: for the delimiter-containing name "b;c", adding it
twice to the empty collection persists the raw value "b;c;b;c", not the
raw value "b;c" that a single add persists. -/
theorem c2_add_twice_counterexample :
    addFavoriteEffect "".data "b;c".data = "b;c".data ∧
    addFavoriteEffect (addFavoriteEffect "".data "b;c".data) "b;c".data
        = "b;c;b;c".data ∧
    addFavoriteEffect (addFavoriteEffect "".data "b;c".data) "b;c".data
        ≠ addFavoriteEffect "".data "b;c".data := by
  refine ⟨by decide, by decide, by decide⟩

/-- C2 (amended): for every name that does not contain the delimiter and
every prior raw value, adding the name twice in succession persists the same
raw value (hence the same member set) as adding it once; likewise for
`addExpandedFolder`. -/
theorem c2_add_idempotent (raw n : Str) (h : ';' ∉ n) :
    addFavoriteEffect (addFavoriteEffect raw n) n = addFavoriteEffect raw n ∧
    addExpandedFolder (addExpandedFolder raw n) n = addExpandedFolder raw n := by
  have key : dedupFirst (favoriteEffectNames (addFavoriteEffect raw n) ++ [n])
      = dedupFirst (favoriteEffectNames raw ++ [n]) := by
    rw [favoriteEffectNames_addFavoriteEffect raw h]
    by_cases htt : trimTruthy n
    · have hall : (dedupFirst (favoriteEffectNames raw ++ [n])).filter trimTruthy
          = dedupFirst (favoriteEffectNames raw ++ [n]) := by
        refine List.filter_eq_self.mpr fun x hx => ?_
        rcases List.mem_append.mp (mem_dedupFirst.mp hx) with hx | hx
        · exact trimTruthy_of_mem_favoriteEffectNames hx
        · rw [List.mem_singleton.mp hx]; exact htt
      have hn : n ∈ dedupFirst (favoriteEffectNames raw ++ [n]) :=
        mem_dedupFirst.mpr (List.mem_append.mpr (Or.inr (List.mem_singleton.mpr rfl)))
      rw [hall, dedupFirst_append_singleton, if_pos hn, dedupFirst_idem]
    · have hnm : n ∉ favoriteEffectNames raw := fun hmem =>
        htt (trimTruthy_of_mem_favoriteEffectNames hmem)
      have htt2 : trimTruthy n = false := Bool.eq_false_iff.mpr htt
      have hnd : n ∉ dedupFirst (favoriteEffectNames raw) := fun hx =>
        hnm (mem_dedupFirst.mp hx)
      rw [dedupFirst_append_singleton (favoriteEffectNames raw) n, if_neg hnm,
        List.filter_append,
        List.filter_eq_self.mpr
          (fun x hx => trimTruthy_of_mem_favoriteEffectNames (mem_dedupFirst.mp hx))]
      have hnil : [n].filter trimTruthy = [] := by simp [htt2]
      rw [hnil, List.append_nil, dedupFirst_append_singleton, if_neg hnd,
        dedupFirst_idem]
  have h1 : addFavoriteEffect (addFavoriteEffect raw n) n = addFavoriteEffect raw n := by
    show joinSemi (dedupFirst (favoriteEffectNames (addFavoriteEffect raw n) ++ [n]))
        = addFavoriteEffect raw n
    rw [key]
    rfl
  exact ⟨h1, h1⟩

/-- C2 witness: instantiating the amended idempotence at raw value "a" and
name "b". -/
theorem c2_add_idempotent_witness :
    ';' ∉ "b".data ∧
    (addFavoriteEffect (addFavoriteEffect "a".data "b".data) "b".data
        = addFavoriteEffect "a".data "b".data ∧
      addExpandedFolder (addExpandedFolder "a".data "b".data) "b".data
        = addExpandedFolder "a".data "b".data) :=
  ⟨by decide, c2_add_idempotent "a".data "b".data (by decide)⟩

/-- C8: add performs no validation: in particular a name containing the
delimiter is neither rejected nor escaped — after adding it, the read path
returns its delimiter-split (trim-truthy) parts as separate members appended
after the deduplicated prior members, and never returns the original name
itself. -/
theorem c8_no_validation (raw name : Str) (h : ';' ∈ name) :
    favoriteEffectNames (addFavoriteEffect raw name)
        = dedupFirst (favoriteEffectNames raw) ++ (splitSemi name).filter trimTruthy ∧
    name ∉ favoriteEffectNames (addFavoriteEffect raw name) := by
  have hnm : name ∉ favoriteEffectNames raw := fun hmem =>
    not_semi_of_mem_favoriteEffectNames hmem h
  have hd : dedupFirst (favoriteEffectNames raw ++ [name])
      = dedupFirst (favoriteEffectNames raw) ++ [name] := by
    rw [dedupFirst_append_singleton, if_neg hnm]
  have hmain : favoriteEffectNames (addFavoriteEffect raw name)
      = dedupFirst (favoriteEffectNames raw) ++ (splitSemi name).filter trimTruthy := by
    have hdef : addFavoriteEffect raw name
        = joinSemi (dedupFirst (favoriteEffectNames raw ++ [name])) := rfl
    rw [hdef, hd]
    rcases hdm : dedupFirst (favoriteEffectNames raw) with _ | ⟨p, ps⟩
    · rfl
    · have hsub : ∀ x ∈ p :: ps, x ∈ favoriteEffectNames raw := by
        intro x hx
        exact mem_dedupFirst.mp (hdm ▸ hx)
      have hne : (p :: ps : List Str) ≠ [] := by simp
      have hjoin : joinSemi ((p :: ps) ++ [name]) = joinSemi (p :: ps) ++ ';' :: name :=
        joinSemi_append_singleton hne name
      have hsplitj : splitSemi (joinSemi (p :: ps)) = p :: ps :=
        splitSemi_joinSemi
          (fun x hx => not_semi_of_mem_favoriteEffectNames (hsub x hx)) hne
      have hparse : favoriteEffectNames (joinSemi ((p :: ps) ++ [name]))
          = (p :: ps).filter trimTruthy ++ (splitSemi name).filter trimTruthy := by
        rw [hjoin]
        show (splitSemi (joinSemi (p :: ps) ++ ';' :: name)).filter trimTruthy = _
        rw [splitSemi_append_semi, List.filter_append, hsplitj]
      rw [hparse,
        List.filter_eq_self.mpr
          (fun x hx => trimTruthy_of_mem_favoriteEffectNames (hsub x hx))]
  refine ⟨hmain, ?_⟩
  rw [hmain]
  intro hmem
  rcases List.mem_append.mp hmem with hx | hx
  · exact not_semi_of_mem_favoriteEffectNames (mem_dedupFirst.mp hx) h
  · exact not_semi_mem_of_mem_splitSemi name _ (List.mem_of_mem_filter hx) h

/-- C8 witness: adding "b;c" to the raw value "a" yields the members
"a", "b", "c", and "b;c" itself is not a member. -/
theorem c8_no_validation_witness :
    ';' ∈ "b;c".data ∧
    (favoriteEffectNames (addFavoriteEffect "a".data "b;c".data)
        = dedupFirst (favoriteEffectNames "a".data)
            ++ (splitSemi "b;c".data).filter trimTruthy ∧
      "b;c".data ∉ favoriteEffectNames (addFavoriteEffect "a".data "b;c".data)) :=
  ⟨by decide, c8_no_validation "a".data "b;c".data (by decide)⟩

/-- C9 counterexample: adding the whitespace-only name " " to the empty
collection persists the raw value " ", but joining the members the read
path returns gives "", so the persisted raw value is not re-derivable from
the member set. -/
theorem c9_invariant_counterexample :
    addFavoriteEffect "".data " ".data = " ".data ∧
    joinSemi (favoriteEffectNames (addFavoriteEffect "".data " ".data)) = "".data ∧
    addFavoriteEffect "".data " ".data
        ≠ joinSemi (favoriteEffectNames (addFavoriteEffect "".data " ".data)) := by
  refine ⟨by decide, by decide, by decide⟩

/-- C9 (amended): adding a delimiter-free, non-whitespace-only name,
removing any such name, and clearing all leave a raw value equal to the
delimiter-join of the members the read path returns afterwards (for add the
two restrictions on the name are necessary; remove and clear in fact never
break the invariant). -/
theorem c9_raw_rederivable (raw name : Str) (h1 : ';' ∉ name)
    (h2 : trimTruthy name = true) :
    addFavoriteEffect raw name
        = joinSemi (favoriteEffectNames (addFavoriteEffect raw name)) ∧
    removeFavoriteEffect raw name
        = joinSemi (favoriteEffectNames (removeFavoriteEffect raw name)) ∧
    clearExpandedFolders raw
        = joinSemi (expandedFolders (clearExpandedFolders raw)) := by
  refine ⟨?_, ?_, rfl⟩
  · rw [favoriteEffectNames_addFavoriteEffect raw h1]
    have hall : (dedupFirst (favoriteEffectNames raw ++ [name])).filter trimTruthy
        = dedupFirst (favoriteEffectNames raw ++ [name]) := by
      refine List.filter_eq_self.mpr fun x hx => ?_
      rcases List.mem_append.mp (mem_dedupFirst.mp hx) with hx | hx
      · exact trimTruthy_of_mem_favoriteEffectNames hx
      · rw [List.mem_singleton.mp hx]; exact h2
    rw [hall]
    rfl
  · rw [favoriteEffectNames_removeFavoriteEffect]
    rfl

/-- C9 witness: instantiating the amended invariant at raw value "a" and
name "b". -/
theorem c9_raw_rederivable_witness :
    ';' ∉ "b".data ∧ trimTruthy "b".data = true ∧
    (addFavoriteEffect "a".data "b".data
        = joinSemi (favoriteEffectNames (addFavoriteEffect "a".data "b".data)) ∧
      removeFavoriteEffect "a".data "b".data
        = joinSemi (favoriteEffectNames (removeFavoriteEffect "a".data "b".data)) ∧
      clearExpandedFolders "a".data
        = joinSemi (expandedFolders (clearExpandedFolders "a".data))) :=
  ⟨by decide, by decide, c9_raw_rederivable "a".data "b".data (by decide) (by decide)⟩

/-- C10 counterexample: on the prior raw value "a;a" (whose member sequence
"a", "a" has a duplicate), adding the whitespace-only name " " leaves the
member sequence "a" — the duplicate collapses — so the read result is not
the same member sequence as before the add. -/
theorem c10_whitespace_counterexample :
    trimTruthy " ".data = false ∧
    favoriteEffectNames "a;a".data = ["a".data, "a".data] ∧
    favoriteEffectNames (addFavoriteEffect "a;a".data " ".data)
        ≠ favoriteEffectNames "a;a".data := by
  refine ⟨by decide, by decide, by decide⟩

/-- C10 (amended): adding a whitespace-only (or empty) name always
completes, but the name is lost at the membership level:
`isFavoritedEffect` stays false, and the member sequence afterwards is the
first-occurrence deduplication of the prior member sequence — equal to the
prior sequence whenever it was duplicate-free (as any store-written state
is). -/
theorem c10_whitespace_add_lost (raw name : Str) (h : trimTruthy name = false) :
    isFavoritedEffect (addFavoriteEffect raw name) name = false ∧
    favoriteEffectNames (addFavoriteEffect raw name)
        = dedupFirst (favoriteEffectNames raw) ∧
    ((favoriteEffectNames raw).Nodup →
      favoriteEffectNames (addFavoriteEffect raw name) = favoriteEffectNames raw) := by
  have hsemi : ';' ∉ name := by
    intro hmem
    have hall := List.any_eq_false.mp h
    have h2 := hall ';' hmem
    simp [isJsWhitespace, jsWhitespaceCodes] at h2
  have hnm : name ∉ favoriteEffectNames raw := by
    intro hmem
    have htrue := trimTruthy_of_mem_favoriteEffectNames hmem
    rw [h] at htrue
    exact Bool.false_ne_true htrue
  have hmem1 : favoriteEffectNames (addFavoriteEffect raw name)
      = dedupFirst (favoriteEffectNames raw) := by
    rw [favoriteEffectNames_addFavoriteEffect raw hsemi,
      dedupFirst_append_singleton, if_neg hnm, List.filter_append,
      List.filter_eq_self.mpr
        (fun x hx => trimTruthy_of_mem_favoriteEffectNames (mem_dedupFirst.mp hx))]
    simp [h]
  have hnotmem : name ∉ favoriteEffectNames (addFavoriteEffect raw name) := by
    rw [hmem1]
    exact fun hx => hnm (mem_dedupFirst.mp hx)
  refine ⟨by simpa [isFavoritedEffect] using hnotmem, hmem1, fun hnd => ?_⟩
  rw [hmem1, dedupFirst_eq_self_of_nodup hnd]

/-- C10 witness: instantiating the amended claim at raw value "a" and the
whitespace-only name " ". -/
theorem c10_whitespace_add_lost_witness :
    trimTruthy " ".data = false ∧
    (isFavoritedEffect (addFavoriteEffect "a".data " ".data) " ".data = false ∧
      favoriteEffectNames (addFavoriteEffect "a".data " ".data)
          = dedupFirst (favoriteEffectNames "a".data) ∧
      ((favoriteEffectNames "a".data).Nodup →
        favoriteEffectNames (addFavoriteEffect "a".data " ".data)
            = favoriteEffectNames "a".data)) :=
  ⟨by decide, c10_whitespace_add_lost "a".data " ".data (by decide)⟩
